import Mathlib

/-!
Verification of the insurance-RAG retrieval core
(`back/app/services/rag_service.py`, `back/app/services/vector_search.py`,
`back/app/routers/qa.py`) against its natural-language specification.

Modelling conventions:
* Python dict rows become Lean structures with `Option` fields; Python
  truthiness (`x or y`) is modelled explicitly (`none`/`""`/`0` are falsy).
* Similarity scores (Python floats) are modelled as rationals `ℚ`; the
  claims settled here are about ordering, filtering and list structure,
  not float rounding.
* The SQL scan `SELECT ... WHERE source ILIKE ... ORDER BY embedding <->
  q LIMIT n` is modelled by taking the store's row list already in the
  scan order for the given query and applying `filter`/`take`; the scores
  carried by the rows are the `1 - (embedding <=> q)` values produced by
  the same query.  The scan-order list and the scores are independent in
  the model, exactly as the code allows (`<->` ordering vs `<=>` scores).
* Python's stable `sorted(..., reverse=True)` is modelled by a stable
  descending insertion sort; stability + sortedness + permutation
  determine that function uniquely, so the two agree extensionally.
-/

/-- Python truthiness of an optional string: `None` and `""` are falsy. -/
def sTruthy : Option String → Bool
  | none => false
  | some s => s ≠ ""

/-- Python `a or b` on optional strings. -/
def pyOrS (a b : Option String) : Option String :=
  if sTruthy a then a else b

/-- Python `a or dflt` where `dflt` is a plain string. -/
def pyStrOr (a : Option String) (dflt : String) : String :=
  match a with
  | none => dflt
  | some s => if s = "" then dflt else s

/-- Python truthiness of an optional integer: `None` and `0` are falsy. -/
def iTruthy : Option Int → Bool
  | none => false
  | some i => i ≠ 0

/-- Remove every whitespace character, the embedding of
`re.sub(r"\s+", "", s)`. -/
def removeWs (s : String) : String :=
  ⟨s.data.filter (fun c => !c.isWhitespace)⟩

/-- Lower-case a string character-wise (`str.lower()`). -/
def lowerStr (s : String) : String :=
  ⟨s.data.map Char.toLower⟩

/-- Remove space characters (`str.replace(" ", "")`). -/
def removeSpaces (s : String) : String :=
  ⟨s.data.filter (fun c => c ≠ ' ')⟩

/-- Drop leading whitespace from a character list. -/
def ltrimL (l : List Char) : List Char :=
  l.dropWhile (fun c => c.isWhitespace)

/-- Python `str.strip()` on a character list. -/
def stripL (l : List Char) : List Char :=
  ltrimL ((ltrimL l.reverse).reverse)

/-- Python `str.strip()` on strings. -/
def stripS (s : String) : String :=
  ⟨stripL s.data⟩

/-- `startsWithL needle hay` : does `hay` start with `needle`? -/
def startsWithL : List Char → List Char → Bool
  | [], _ => true
  | _ :: _, [] => false
  | a :: as, b :: bs => a == b && startsWithL as bs

/-- `occursInL needle hay` : does `needle` occur as a contiguous sublist
of `hay`?  (Python `needle in hay` on strings.) -/
def occursInL (needle : List Char) : List Char → Bool
  | [] => startsWithL needle []
  | c :: cs => startsWithL needle (c :: cs) || occursInL needle cs

/-- Python `needle in hay` for strings. -/
def occursInS (needle hay : String) : Bool :=
  occursInL needle.data hay.data

/-- A row of the `document_chunks` table as it comes back from the vector
scan for one fixed query: metadata columns (all nullable except
`chunk_id`) plus the similarity `1 - (embedding <=> query)` computed by
that query.  A store is a `List DbRow` listed in the scan order
(`ORDER BY embedding <-> query`). -/
structure DbRow where
  doc_id : Option String
  chunk_id : Int
  content : Option String
  source : Option String
  policy_type : Option String
  page : Option Int
  file_name : Option String
  clause_title : Option String
  score : ℚ
deriving DecidableEq, Repr

/-- The Python dict flowing through `_insurer_ok`, `_dedup_by_file_page`,
`_rerank_by_keywords` and `_format_blocks`.  Every key those helpers may
probe is a field; a key absent from the dict is `none`. -/
structure Hit where
  doc_id : Option String
  chunk_id : Int
  content : Option String
  chunk_text : Option String
  policy_type : Option String
  insurer : Option String
  company : Option String
  carrier : Option String
  page : Option Int
  page_no : Option Int
  file_name : Option String
  clause_title : Option String
  score : Option ℚ
deriving DecidableEq, Repr

/-- The dict built from a scan row in `_search_top_k` (rag_service.py
lines 194-206); note `source AS policy_type` in the SQL. -/
def toHit (r : DbRow) : Hit :=
  { doc_id := r.doc_id
    chunk_id := r.chunk_id
    content := r.content
    chunk_text := none
    policy_type := r.source
    insurer := none
    company := none
    carrier := none
    page := r.page
    page_no := none
    file_name := r.file_name
    clause_title := r.clause_title
    score := some r.score }

/-- The alias table of `_norm_insurer` (rag_service.py lines 75-88). -/
def normInsurerTable : List (String × String) :=
  [("DB손해보험", "DB손해보험"), ("DB손해", "DB손해보험"),
   ("동부화재", "DB손해보험"), ("dbinsurance", "DB손해보험"),
   ("현대해상", "현대해상"), ("HI", "현대해상"),
   ("hyundaemarine", "현대해상"),
   ("삼성화재", "삼성화재"), ("SamsungFire", "삼성화재"),
   ("공통", "공통"), ("표준", "공통"), ("가이드", "공통")]

/-- `_norm_insurer` (rag_service.py lines 71-89): falsy input gives
`None`; otherwise all whitespace is removed and the result is looked up
in the alias table, defaulting to itself. -/
def norm_insurer (name : Option String) : Option String :=
  match name with
  | none => none
  | some s =>
    if s = "" then none
    else
      let t := removeWs s
      some ((normInsurerTable.lookup t).getD t)

/-- The alias table of `_norm_insurer_py` (vector_search.py lines 21-34). -/
def normInsurerPyTable : List (String × String) :=
  [("db손해", "db손해보험"), ("db손해보험", "db손해보험"),
   ("db", "db손해보험"), ("동부화재", "db손해보험"),
   ("현대해상", "현대해상"), ("현대해상화재", "현대해상"),
   ("삼성화재", "삼성화재"), ("한화손해보험", "한화손해보험"),
   ("kb손해보험", "kb손해보험"),
   ("공통", "공통"), ("표준", "공통"), ("표준약관", "공통")]

/-- `_norm_insurer_py` (vector_search.py lines 17-35): falsy input gives
`None`; otherwise strip, lower-case and remove spaces, then look the
result up in the alias table, defaulting to itself. -/
def norm_insurer_py (name : Option String) : Option String :=
  match name with
  | none => none
  | some s =>
    if s = "" then none
    else
      let t := removeSpaces (lowerStr (stripS s))
      some ((normInsurerPyTable.lookup t).getD t)

/-- `_insurer_ok` (rag_service.py lines 91-99): with a falsy `want`
everything passes; otherwise the first truthy of the four category keys
is normalized (falsy normalization result falls back to "공통") and must
equal `want` or "공통". -/
def insurer_ok (h : Hit) (want : Option String) : Bool :=
  if !sTruthy want then true
  else
    let ins_raw := pyOrS h.policy_type (pyOrS h.insurer (pyOrS h.company h.carrier))
    let ins := pyStrOr (norm_insurer ins_raw) "공통"
    ins == want.getD "" || ins == "공통"

/-- The deduplication key of `_dedup_by_file_page` (rag_service.py lines
108-111): `(file_name or doc_id or "").strip()` paired with
`str(page or page_no or "").strip()`. -/
def dedupKey (h : Hit) : String × String :=
  ( stripS (pyStrOr (pyOrS h.file_name h.doc_id) "")
  , stripS (if iTruthy h.page then toString (h.page.getD 0)
            else if iTruthy h.page_no then toString (h.page_no.getD 0)
            else "") )

/-- The loop of `_dedup_by_file_page`, with the `seen` set made explicit. -/
def dedupGo (seen : List (String × String)) : List Hit → List Hit
  | [] => []
  | h :: t =>
    if dedupKey h ∈ seen then dedupGo seen t
    else h :: dedupGo (dedupKey h :: seen) t

/-- `_dedup_by_file_page` (rag_service.py lines 105-116): keep the first
hit for each `(file, page)` key, drop every later one. -/
def dedup_by_file_page (hits : List Hit) : List Hit :=
  dedupGo [] hits

/-- `_KEYWORDS` (rag_service.py line 118). -/
def KEYWORDS : List String :=
  ["청구", "서류", "구비서류", "제출", "보험금", "신청서", "진단서",
   "영수증", "사본", "입원", "퇴원", "면책", "특약"]

/-- `_keyword_score` (rag_service.py lines 120-122): how many of the
fixed keywords occur as substrings of the text. -/
def keyword_score (t : String) : Nat :=
  (KEYWORDS.filter (fun k => occursInS k t)).length

/-- The per-keyword bonus `0.03` used by `_rerank_by_keywords`. -/
def BONUS : ℚ := 3 / 100

/-- The text `_rerank_by_keywords` scores:
`h.get("content") or h.get("chunk_text") or ""`. -/
def effContent (h : Hit) : String :=
  pyStrOr (pyOrS h.content h.chunk_text) ""

/-- The score update of `_rerank_by_keywords` (rag_service.py lines
126-131): `score = float(score or 0.0) + 0.03 * keyword_score(text)`. -/
def updateScore (h : Hit) : Hit :=
  { h with score := some (h.score.getD 0 + BONUS * (keyword_score (effContent h) : ℚ)) }

/-- The sort key `x["score"]` of `_rerank_by_keywords`. -/
def scoreKey (h : Hit) : ℚ :=
  h.score.getD 0

/-- Stable descending insertion: the new element goes in front of the
first old element whose key is `≤` its own (old elements precede the new
one in the original list, so on ties the old... the *new* element came
first and stays first). -/
def insertDesc (x : Hit) : List Hit → List Hit
  | [] => [x]
  | y :: ys => if scoreKey y ≤ scoreKey x then x :: y :: ys else y :: insertDesc x ys

/-- Stable descending sort by score: the embedding of Python's
`sorted(out, key=lambda x: x["score"], reverse=True)` (a stable sort). -/
def sortDescScore : List Hit → List Hit
  | [] => []
  | x :: xs => insertDesc x (sortDescScore xs)

/-- `_rerank_by_keywords` (rag_service.py lines 124-132). -/
def rerank_by_keywords (hits : List Hit) : List Hit :=
  sortDescScore (hits.map updateScore)

/-- `str(h.get("page") or h.get("page_no") or "?")` in `_format_blocks`. -/
def pageStr (h : Hit) : String :=
  if iTruthy h.page then toString (h.page.getD 0)
  else if iTruthy h.page_no then toString (h.page_no.getD 0)
  else "?"

/-- One block of `_format_blocks` (rag_service.py lines 137-145):
`"(<file> p.<page>)[ · <clause>]\n<content>"`, as a character list. -/
def blockOfL (h : Hit) : List Char :=
  let fn := (stripS (pyStrOr (pyOrS h.file_name h.doc_id) "document")).data
  let pg := (stripS (pageStr h)).data
  let content := (stripS (effContent h)).data
  let clause := (stripS (pyStrOr h.clause_title "")).data
  let head := ('(' :: fn) ++ " p.".data ++ pg ++ [')']
              ++ (if clause ≠ [] then " · ".data ++ clause else [])
  head ++ '\n' :: content

/-- The block separator `"\n\n---\n\n"` of `_format_blocks`. -/
def SEP : List Char := ['\n', '\n', '-', '-', '-', '\n', '\n']

/-- `sep.join(blocks)`. -/
def joinSep : List (List Char) → List Char
  | [] => []
  | [b] => b
  | b :: b2 :: bs => b ++ SEP ++ joinSep (b2 :: bs)

/-- `_format_blocks` (rag_service.py lines 134-146), at character-list
level: format every hit and join with the separator. -/
def formatBlocksL (hits : List Hit) : List Char :=
  joinSep (hits.map blockOfL)

/-- Fueled splitter: Python `s.split(sep)` for `sep = SEP`, cutting at
every (leftmost-first, non-overlapping) occurrence of `SEP`.  The fuel
only serves structural recursion; `fuel ≥ length` makes it exact. -/
def splitGo : Nat → List Char → List (List Char)
  | _, [] => [[]]
  | 0, s => [s]
  | fuel + 1, c :: cs =>
    if startsWithL SEP (c :: cs) then
      [] :: splitGo fuel (List.drop 6 cs)
    else
      match splitGo fuel cs with
      | [] => [[c]]
      | p :: ps => (c :: p) :: ps

/-- Python `s.split("\n\n---\n\n")` on character lists. -/
def splitOnSep (s : List Char) : List (List Char) :=
  splitGo s.length s

/-- Length of the leading run of newline characters. -/
def runNL : List Char → Nat
  | [] => 0
  | c :: t => if c = '\n' then runNL t + 1 else 0

/-- `\d+\.\s` after the digits: more digits, or `.` then a whitespace. -/
def digMore : List Char → Bool
  | [] => false
  | c :: cs =>
    if c.isDigit then digMore cs
    else
      c == '.' && (match cs with
                   | w :: _ => w.isWhitespace
                   | [] => false)

/-- Does the text start with `\d+\.\s` ? -/
def digMatch : List Char → Bool
  | [] => false
  | c :: cs => c.isDigit && digMore cs

/-- Does the text start with `###\s` ? -/
def hashMatch : List Char → Bool
  | '#' :: '#' :: '#' :: w :: _ => w.isWhitespace
  | _ => false

/-- `re.match(r"^(\d+\.\s|\(|###\s)", tk)` as a Bool. -/
def patMatch (l : List Char) : Bool :=
  digMatch l || startsWithL ['('] l || hashMatch l

/-- The text captured by the group `(\d+\.\s|\(|###\s)` when `digMatch`
holds: the digits, the dot and the single whitespace character. -/
def digCap : List Char → List Char
  | [] => []
  | c :: cs =>
    if c.isDigit then c :: digCap cs
    else c :: (match cs with
               | w :: _ => [w]
               | [] => [])

/-- The captured group text at a match position. -/
def capOf (l : List Char) : List Char :=
  if digMatch l then digCap l
  else if startsWithL ['('] l then ['(']
  else '#' :: '#' :: '#' :: (match l.drop 3 with
                             | w :: _ => [w]
                             | [] => [])

/-- `re.split(r"\n{2,}(?=(\d+\.\s|\(|###\s))", s)` (qa.py line 130):
cut at every maximal run of ≥ 2 newlines that is followed by a block
header, dropping the newlines and inserting the captured lookahead text
as its own token (re.split emits capture groups).  Fueled for structural
recursion; fuel ≥ length makes it exact. -/
def altSplitGo : Nat → List Char → List (List Char)
  | _, [] => [[]]
  | 0, s => [s]
  | fuel + 1, c :: cs =>
    if 2 ≤ runNL (c :: cs) && patMatch ((c :: cs).drop (runNL (c :: cs))) then
      [] :: capOf ((c :: cs).drop (runNL (c :: cs)))
         :: altSplitGo fuel ((c :: cs).drop (runNL (c :: cs)))
    else
      match altSplitGo fuel cs with
      | [] => [[c]]
      | p :: ps => (c :: p) :: ps

/-- The alternative regex split of `_split_blocks`. -/
def altSplit (s : List Char) : List (List Char) :=
  altSplitGo s.length s

/-- The token-rebuilding loop of `_split_blocks` (qa.py lines 131-141):
tokens that start like a block header open a new buffer, other tokens
are appended to the current buffer; non-blank buffers are emitted. -/
def rebuildGo (buf : List Char) : List (List Char) → List (List Char)
  | [] => if stripL buf ≠ [] then [buf] else []
  | tk :: tks =>
    if patMatch tk then
      if stripL buf ≠ [] then buf :: rebuildGo tk tks
      else rebuildGo tk tks
    else rebuildGo (buf ++ tk) tks

/-- `_split_blocks` (qa.py lines 116-145): empty text gives `[]`; if the
canonical separator yields more than one non-blank part, return those
parts; otherwise fall back to the regex split and rebuild, returning the
stripped non-blank blocks (or the whole stripped text). -/
def splitBlocksL (s : List Char) : List (List Char) :=
  if s = [] then []
  else if 1 < ((splitOnSep s).filter (fun b => stripL b ≠ [])).length then
    (splitOnSep s).filter (fun b => stripL b ≠ [])
  else if ((rebuildGo [] (altSplit s)).filter
              (fun b => b ≠ [] ∧ stripL b ≠ [])).map stripL = [] then
    [stripL s]
  else
    ((rebuildGo [] (altSplit s)).filter (fun b => b ≠ [] ∧ stripL b ≠ [])).map stripL

/-- `ILIKE '%' || pat || '%'` : case-insensitive containment; a NULL
column never matches. -/
def ilikeMatch (pat : String) (field : Option String) : Bool :=
  match field with
  | none => false
  | some s => occursInL (lowerStr pat).data (lowerStr s).data

/-- `_search_top_k` (rag_service.py lines 152-218).  `store` is the
table in scan order for the query (see the header comment); `mult` and
`base_min` are the `RETRIEVAL_BUDGET_MULTIPLIER` / `RETRIEVAL_BUDGET_MIN`
environment values (defaults 4 and 20). -/
def search_top_k (store : List DbRow) (insurer : Option String)
    (top_k : Int) (mult base_min : Nat) : List Hit :=
  let want : String := (norm_insurer insurer).getD ""
  let tk : Nat := (max 1 (min top_k 50)).toNat
  let budget : Nat := max (tk * max mult 1) base_min
  let rows : List DbRow :=
    if want ≠ "" then
      (store.filter (fun r => ilikeMatch (stripS want) r.source)).take budget
    else store.take budget
  let raw_hits := rows.map toHit
  let hits1 := raw_hits.filter (fun h => insurer_ok h (some want))
  let hits2 :=
    if hits1 = [] ∧ want ≠ "" then
      raw_hits.filter (fun h => norm_insurer h.policy_type == some "공통")
    else hits1
  let hits3 := if hits2 = [] then raw_hits else hits2
  (rerank_by_keywords (dedup_by_file_page hits3)).take tk

/-- `_search_top_k` seen from the query vector.  Models the external
vector store's dimension contract from the spec (§3: embedding
dimensionality is constant and mismatches are a hard error, §6): pgvector
rejects a query vector whose dimension differs from the column's, and
`_search_top_k` wraps `db.execute` in no try/except, so the error
propagates to the caller unmodified. -/
def search_top_k_vec (dim : Nat) (store : List DbRow) (qvec : List ℚ)
    (insurer : Option String) (top_k : Int) (mult base_min : Nat) :
    Except String (List Hit) :=
  if qvec.length = dim then
    Except.ok (search_top_k store insurer top_k mult base_min)
  else Except.error "vector dimension mismatch"

/-- The COALESCEd dict of `retrieve_context_base` (vector_search.py
lines 58-91): `content` defaults to `''`, `file_name` to `doc_id`,
`page` to `0`. -/
def toVHit (r : DbRow) : DbRow :=
  { r with
    content := some (r.content.getD "")
    file_name := match r.file_name with
                 | none => r.doc_id
                 | some s => some s
    page := some (r.page.getD 0) }

/-- Python `l[:k]` for an `int` slice bound that may be negative. -/
def pySlice (k : Int) (l : List Hit) : List Hit :=
  if 0 ≤ k then l.take k.toNat
  else l.take (l.length - (-k).toNat)

/-- Python `l[:k]` on `DbRow` lists. -/
def pySliceR (k : Int) (l : List DbRow) : List DbRow :=
  if 0 ≤ k then l.take k.toNat
  else l.take (l.length - (-k).toNat)

/-- `retrieve_context_base` (vector_search.py lines 40-111), the
duplicate retrieval implementation: insurer-filtered scan with budget
`max(6 * top_k, 30)`, then want-tier / common-tier / fallback and a
`[:top_k]` Python slice (no clamping of `top_k`). -/
def retrieve_context_base (store : List DbRow) (insurer : Option String)
    (top_k : Int) : List DbRow :=
  let want : String := (norm_insurer_py insurer).getD ""
  let budget : Int := max (top_k * 6) 30
  let rows : List DbRow :=
    if want ≠ "" ∧ want ≠ "공통" then
      (store.filter (fun r => ilikeMatch want r.source)).take budget.toNat
    else store.take budget.toNat
  if rows = [] then []
  else
    let hits := rows.map toVHit
    let want_hits :=
      if want ≠ "" then hits.filter (fun h => norm_insurer_py h.source == some want)
      else []
    if want ≠ "" ∧ want_hits ≠ [] then pySliceR top_k want_hits
    else
      let common_hits := hits.filter (fun h => norm_insurer_py h.source == some "공통")
      if common_hits ≠ [] then pySliceR top_k common_hits
      else pySliceR top_k hits

/-- A store row of category "삼성화재": neither the requested "현대해상"
nor the universal "공통" category. -/
def rowSamsung : DbRow :=
  { doc_id := some "d1", chunk_id := 1, content := some "암 진단시 지급",
    source := some "삼성화재", policy_type := some "삼성화재",
    page := some 3, file_name := some "s.pdf", clause_title := none,
    score := 9 }

/-- A store row of the universal "공통" category. -/
def rowCommon : DbRow :=
  { doc_id := some "d2", chunk_id := 2, content := some "표준약관 내용",
    source := some "공통", policy_type := some "공통",
    page := some 1, file_name := some "c.pdf", clause_title := none,
    score := 8 }

/-- Claim C1: P3 (total fallback) fails on the code.  With a store whose
only chunk is of category "삼성화재" and a request for "현대해상" —
zero chunks of the requested category and zero "공통" chunks — both
`_search_top_k` and `retrieve_context_base` return the empty list, even
though the store is non-empty: the SQL `ILIKE` pre-filter removes every
candidate before the tier-3 fallback can see it, so the pre-filter is
correctness-bearing, not an optimization. -/
theorem total_fallback_violated :
    search_top_k [rowSamsung] (some "현대해상") 5 4 20 = []
    ∧ retrieve_context_base [rowSamsung] (some "현대해상") 5 = []
    ∧ ([rowSamsung] : List DbRow) ≠ [] := by
  refine ⟨by decide, by decide, by decide⟩

/-- Claim C2: P2 (fallback ordering) fails on the code.  With a store
whose only chunk is of the universal "공통" category and a request for
"현대해상", both `_search_top_k` and `retrieve_context_base` return the
empty list instead of the "공통" chunk: the "공통" row does not match
`source ILIKE '%현대해상%'`, so the SQL pre-filter starves the common
tier. -/
theorem common_fallback_violated :
    search_top_k [rowCommon] (some "현대해상") 5 4 20 = []
    ∧ retrieve_context_base [rowCommon] (some "현대해상") 5 = []
    ∧ norm_insurer rowCommon.source = some "공통"
    ∧ ([rowCommon] : List DbRow) ≠ [] := by
  refine ⟨by decide, by decide, by decide, by decide⟩

/-- Claim C3: a query vector whose dimension differs from the store's
configured dimension makes `retrieve` fail with the dimension-mismatch
error and never produce a result.  The check itself is the external
store's contract (spec §3/§6, modelled in `search_top_k_vec`);
`_search_top_k` propagates the error uncaught. -/
theorem dim_mismatch_errors (dim : Nat) (store : List DbRow)
    (qvec : List ℚ) (ins : Option String) (k : Int) (m b : Nat)
    (h : qvec.length ≠ dim) :
    search_top_k_vec dim store qvec ins k m b
      = Except.error "vector dimension mismatch"
    ∧ ∀ out, search_top_k_vec dim store qvec ins k m b ≠ Except.ok out := by
  unfold search_top_k_vec
  refine ⟨if_neg h, ?_⟩
  intro out
  rw [if_neg h]
  intro hc
  exact Except.noConfusion hc

/-- Witness for `dim_mismatch_errors` at a concrete wrong-dimension
query vector. -/
theorem dim_mismatch_errors_witness :
    ([(1 : ℚ), 2] : List ℚ).length ≠ 3
    ∧ search_top_k_vec 3 [] [(1 : ℚ), 2] none 5 4 20
        = Except.error "vector dimension mismatch" :=
  ⟨by decide, (dim_mismatch_errors 3 [] [(1 : ℚ), 2] none 5 4 20 (by decide)).1⟩

/-- Claim C6 (amended): `_search_top_k` clamps a non-positive `k` to 1
(same result as `k = 1`) and returns at most `k` chunks for `k ≥ 1`.
(The duplicate `retrieve_context_base` does not clamp — see the
counterexample.) -/
theorem nonpositive_k_clamped (store : List DbRow) (ins : Option String)
    (m b : Nat) (k : Int) :
    (k ≤ 0 → search_top_k store ins k m b = search_top_k store ins 1 m b)
    ∧ (1 ≤ k → (search_top_k store ins k m b).length ≤ k.toNat) := by
  constructor
  · intro hk
    have h1 : max 1 (min k 50) = max 1 (min (1 : Int) 50) := by omega
    simp only [search_top_k, h1]
  · intro hk
    have h2 : (max 1 (min k 50)).toNat ≤ k.toNat := by omega
    simp only [search_top_k]
    exact le_trans (List.length_take_le _ _) h2

/-- Witness for `nonpositive_k_clamped` at `k = 0` and `k = 2` on a
concrete one-row store. -/
theorem nonpositive_k_clamped_witness :
    ((0 : Int) ≤ 0
      ∧ search_top_k [rowCommon] none 0 4 20 = search_top_k [rowCommon] none 1 4 20)
    ∧ ((1 : Int) ≤ 2
      ∧ (search_top_k [rowCommon] none 2 4 20).length ≤ (2 : Int).toNat) :=
  ⟨⟨by decide, (nonpositive_k_clamped [rowCommon] none 4 20 0).1 (by decide)⟩,
   ⟨by decide, (nonpositive_k_clamped [rowCommon] none 4 20 2).2 (by decide)⟩⟩

/-- Counterexample to claim C6 as stated: `retrieve_context_base` (one of
the two cited implementations of `retrieve`) does not treat `k ≤ 0` as
`k = 1` — at `k = 0` it returns the empty list although a matching chunk
exists (`k = 1` returns it). -/
theorem rcb_does_not_clamp :
    retrieve_context_base [rowCommon] none 0 = []
    ∧ retrieve_context_base [rowCommon] none 1 ≠ [] := by
  refine ⟨by decide, by decide⟩

/-- Claim C8 (amended): both normalizers are total functions, return
`None` exactly for empty/`None` input, and pass unrecognized non-empty
input through cleaned — `_norm_insurer` with whitespace removed but the
case untouched, `_norm_insurer_py` stripped, lower-cased and with spaces
removed. -/
theorem normalizer_total :
    (norm_insurer none = none ∧ norm_insurer_py none = none)
    ∧ (∀ s : String, norm_insurer (some s) = none ↔ s = "")
    ∧ (∀ s : String, norm_insurer_py (some s) = none ↔ s = "")
    ∧ (∀ s : String, s ≠ "" → normInsurerTable.lookup (removeWs s) = none →
        norm_insurer (some s) = some (removeWs s))
    ∧ (∀ s : String, s ≠ "" →
        normInsurerPyTable.lookup (removeSpaces (lowerStr (stripS s))) = none →
        norm_insurer_py (some s) = some (removeSpaces (lowerStr (stripS s)))) := by
  refine ⟨⟨rfl, rfl⟩, ?_, ?_, ?_, ?_⟩
  · intro s
    by_cases h : s = "" <;> simp [norm_insurer, h]
  · intro s
    by_cases h : s = "" <;> simp [norm_insurer_py, h]
  · intro s hs hl
    simp [norm_insurer, hs, hl]
  · intro s hs hl
    simp [norm_insurer_py, hs, hl]

/-- Witness for `normalizer_total` on the unrecognized input "AbC". -/
theorem normalizer_total_witness :
    ("AbC" : String) ≠ ""
    ∧ norm_insurer (some "AbC") = some (removeWs "AbC") :=
  ⟨by decide, (normalizer_total.2.2.2.1) "AbC" (by decide) (by decide)⟩

/-- Counterexample to claim C8 as stated: `_norm_insurer` does not
case-fold.  On the unrecognized input "AbC" it returns "AbC" unchanged,
not the case-folded "abc". -/
theorem normalizer_not_casefolded :
    norm_insurer (some "AbC") = some "AbC"
    ∧ lowerStr (removeWs "AbC") = "abc"
    ∧ ("AbC" : String) ≠ "abc" := by
  refine ⟨by decide, by decide, by decide⟩

/-- Claim C9: a chunk whose four category keys are all absent or empty
normalizes to the universal "공통" bucket inside `_insurer_ok` and passes
the categorical filter for every requested category. -/
theorem uncategorized_passes (h : Hit) (want : Option String)
    (h1 : h.policy_type = none ∨ h.policy_type = some "")
    (h2 : h.insurer = none ∨ h.insurer = some "")
    (h3 : h.company = none ∨ h.company = some "")
    (h4 : h.carrier = none ∨ h.carrier = some "") :
    insurer_ok h want = true := by
  unfold insurer_ok
  split
  · rfl
  · rcases h1 with e1 | e1 <;> rcases h2 with e2 | e2 <;>
      rcases h3 with e3 | e3 <;> rcases h4 with e4 | e4 <;>
      simp [e1, e2, e3, e4, pyOrS, sTruthy, pyStrOr, norm_insurer]

/-- An entirely uncategorized hit. -/
def bareHit : Hit :=
  { doc_id := some "d9", chunk_id := 9, content := some "본문",
    chunk_text := none, policy_type := none, insurer := none,
    company := none, carrier := none, page := some 1, page_no := none,
    file_name := some "b.pdf", clause_title := none, score := some 1 }

/-- Witness for `uncategorized_passes` on a concrete uncategorized hit
and the requested category "현대해상". -/
theorem uncategorized_passes_witness :
    bareHit.policy_type = none
    ∧ insurer_ok bareHit (some "현대해상") = true :=
  ⟨rfl, uncategorized_passes bareHit (some "현대해상")
    (Or.inl rfl) (Or.inl rfl) (Or.inl rfl) (Or.inl rfl)⟩

/-- Claim C10: `_search_top_k` clamps the requested `top_k` from above
to 50 — the result never has more than 50 chunks, and any `k ≥ 50`
behaves exactly like `k = 50`. -/
theorem topk_capped_at_50 (store : List DbRow) (ins : Option String)
    (k : Int) (m b : Nat) :
    (search_top_k store ins k m b).length ≤ 50
    ∧ (50 ≤ k → search_top_k store ins k m b = search_top_k store ins 50 m b) := by
  constructor
  · have h50 : (max 1 (min k 50)).toNat ≤ 50 := by omega
    simp only [search_top_k]
    exact le_trans (List.length_take_le _ _) h50
  · intro hk
    have h1 : max 1 (min k 50) = max 1 (min (50 : Int) 50) := by omega
    simp only [search_top_k, h1]

lemma dedupGo_sublist (seen : List (String × String)) (l : List Hit) :
    List.Sublist (dedupGo seen l) l := by
  induction l generalizing seen with
  | nil => simp [dedupGo]
  | cons h t ih =>
    by_cases hk : dedupKey h ∈ seen
    · simp only [dedupGo, if_pos hk]
      exact (ih seen).cons h
    · simp only [dedupGo, if_neg hk]
      exact (ih _).cons₂ h

lemma dedupGo_not_seen (seen : List (String × String)) (l : List Hit) :
    ∀ y ∈ dedupGo seen l, dedupKey y ∉ seen := by
  induction l generalizing seen with
  | nil => simp [dedupGo]
  | cons h t ih =>
    by_cases hk : dedupKey h ∈ seen
    · simpa only [dedupGo, if_pos hk] using ih seen
    · simp only [dedupGo, if_neg hk]
      intro y hy
      rcases List.mem_cons.mp hy with rfl | hy'
      · exact hk
      · have := ih (dedupKey h :: seen) y hy'
        exact fun hc => this (List.mem_cons_of_mem _ hc)

lemma dedupGo_pairwise (seen : List (String × String)) (l : List Hit) :
    (dedupGo seen l).Pairwise (fun a b => dedupKey a ≠ dedupKey b) := by
  induction l generalizing seen with
  | nil => simp [dedupGo]
  | cons h t ih =>
    by_cases hk : dedupKey h ∈ seen
    · simpa only [dedupGo, if_pos hk] using ih seen
    · simp only [dedupGo, if_neg hk]
      refine List.Pairwise.cons ?_ (ih _)
      intro b hb
      have := dedupGo_not_seen (dedupKey h :: seen) t b hb
      exact fun hc => this (hc ▸ List.mem_cons_self _ _)

lemma dedupGo_covers (seen : List (String × String)) (l : List Hit)
    (hsort : l.Pairwise (fun a b => scoreKey b ≤ scoreKey a)) :
    ∀ x ∈ l, dedupKey x ∉ seen →
      ∃ y ∈ dedupGo seen l, dedupKey y = dedupKey x ∧ scoreKey x ≤ scoreKey y := by
  induction l generalizing seen with
  | nil => simp
  | cons h t ih =>
    intro x hx hnot
    rcases List.pairwise_cons.mp hsort with ⟨hhead, htail⟩
    by_cases hk : dedupKey h ∈ seen
    · simp only [dedupGo, if_pos hk]
      rcases List.mem_cons.mp hx with rfl | hx'
      · exact absurd hk hnot
      · exact ih seen htail x hx' hnot
    · simp only [dedupGo, if_neg hk]
      rcases List.mem_cons.mp hx with rfl | hx'
      · exact ⟨x, List.mem_cons_self _ _, rfl, le_refl _⟩
      · by_cases heq : dedupKey x = dedupKey h
        · exact ⟨h, List.mem_cons_self _ _, heq.symm, hhead x hx'⟩
        · have hnot' : dedupKey x ∉ dedupKey h :: seen := by
            intro hc
            rcases List.mem_cons.mp hc with hc' | hc'
            · exact heq hc'
            · exact hnot hc'
          rcases ih (dedupKey h :: seen) htail x hx' hnot' with ⟨y, hy, hky, hsy⟩
          exact ⟨y, List.mem_cons_of_mem _ hy, hky, hsy⟩

lemma dedupGo_first (pre : List Hit) :
    ∀ (seen : List (String × String)) (x : Hit) (suf : List Hit),
      (∀ p ∈ pre, dedupKey p ≠ dedupKey x) → dedupKey x ∉ seen →
      x ∈ dedupGo seen (pre ++ x :: suf) := by
  induction pre with
  | nil =>
    intro seen x suf _ hnot
    simp only [List.nil_append, dedupGo, if_neg hnot]
    exact List.mem_cons_self _ _
  | cons p pre' ih =>
    intro seen x suf hpre hnot
    by_cases hk : dedupKey p ∈ seen
    · simp only [List.cons_append, dedupGo, if_pos hk]
      exact ih seen x suf (fun q hq => hpre q (List.mem_cons_of_mem _ hq)) hnot
    · simp only [List.cons_append, dedupGo, if_neg hk]
      refine List.mem_cons_of_mem _ (ih _ x suf (fun q hq => hpre q (List.mem_cons_of_mem _ hq)) ?_)
      intro hc
      rcases List.mem_cons.mp hc with hc' | hc'
      · exact hpre p (List.mem_cons_self _ _) hc'.symm
      · exact hnot hc'

/-- Claim C5: on a similarity-ordered input, `_dedup_by_file_page`
returns a subsequence of its input in which every `(file, page)` key
appears exactly once; each input key is represented, the representative
carries a similarity at least that of every input chunk with the same
key, and it is exactly the first chunk encountered with that key. -/
theorem dedup_keeps_first_highest (hits : List Hit)
    (hsort : hits.Pairwise (fun a b => scoreKey b ≤ scoreKey a)) :
    List.Sublist (dedup_by_file_page hits) hits
    ∧ (dedup_by_file_page hits).Pairwise (fun a b => dedupKey a ≠ dedupKey b)
    ∧ (∀ x ∈ hits, ∃ y ∈ dedup_by_file_page hits,
        dedupKey y = dedupKey x ∧ scoreKey x ≤ scoreKey y)
    ∧ (∀ pre x suf, hits = pre ++ x :: suf →
        (∀ p ∈ pre, dedupKey p ≠ dedupKey x) → x ∈ dedup_by_file_page hits) := by
  refine ⟨dedupGo_sublist [] hits, dedupGo_pairwise [] hits,
    fun x hx => dedupGo_covers [] hits hsort x hx (by simp), ?_⟩
  intro pre x suf heq hpre
  rw [dedup_by_file_page, heq]
  exact dedupGo_first pre [] x suf hpre (by simp)

/-- Two hits sharing `(file_name, page)` with different `chunk_id` and
scores; `dupHigh` has the higher similarity. -/
def dupHigh : Hit :=
  { bareHit with chunk_id := 11, score := some 9 }

/-- The lower-similarity duplicate of `dupHigh`. -/
def dupLow : Hit :=
  { bareHit with chunk_id := 12, score := some 7 }

/-- Witness for `dedup_keeps_first_highest` on a concrete sorted pair of
duplicates: the kept representative of `dupLow`'s key has at least its
score, and the output is exactly the higher-scored first occurrence. -/
theorem dedup_keeps_first_highest_witness :
    List.Pairwise (fun a b => scoreKey b ≤ scoreKey a) [dupHigh, dupLow]
    ∧ (∃ y ∈ dedup_by_file_page [dupHigh, dupLow],
        dedupKey y = dedupKey dupLow ∧ scoreKey dupLow ≤ scoreKey y)
    ∧ dedup_by_file_page [dupHigh, dupLow] = [dupHigh] :=
  ⟨by decide,
   (dedup_keeps_first_highest [dupHigh, dupLow] (by decide)).2.2.1 dupLow (by decide),
   by decide⟩

lemma insertDesc_perm (x : Hit) (l : List Hit) :
    (insertDesc x l).Perm (x :: l) := by
  induction l with
  | nil => exact List.Perm.refl _
  | cons y ys ih =>
    by_cases hc : scoreKey y ≤ scoreKey x
    · simp only [insertDesc, if_pos hc]
      exact List.Perm.refl _
    · simp only [insertDesc, if_neg hc]
      exact (ih.cons y).trans (List.Perm.swap x y ys)

lemma mem_insertDesc {z x : Hit} {l : List Hit} :
    z ∈ insertDesc x l ↔ z = x ∨ z ∈ l := by
  rw [(insertDesc_perm x l).mem_iff, List.mem_cons]

lemma insertDesc_sorted (x : Hit) (l : List Hit)
    (h : l.Pairwise (fun a b => scoreKey b ≤ scoreKey a)) :
    (insertDesc x l).Pairwise (fun a b => scoreKey b ≤ scoreKey a) := by
  induction l with
  | nil => simp [insertDesc]
  | cons y ys ih =>
    rcases List.pairwise_cons.mp h with ⟨hy, hys⟩
    by_cases hc : scoreKey y ≤ scoreKey x
    · simp only [insertDesc, if_pos hc]
      refine List.Pairwise.cons ?_ h
      intro b hb
      rcases List.mem_cons.mp hb with rfl | hb'
      · exact hc
      · exact le_trans (hy b hb') hc
    · simp only [insertDesc, if_neg hc]
      refine List.Pairwise.cons ?_ (ih hys)
      intro b hb
      rcases mem_insertDesc.mp hb with rfl | hb'
      · exact le_of_lt (lt_of_not_le hc)
      · exact hy b hb'

lemma sortDescScore_perm (l : List Hit) : (sortDescScore l).Perm l := by
  induction l with
  | nil => exact List.Perm.refl _
  | cons x xs ih =>
    exact (insertDesc_perm x (sortDescScore xs)).trans (ih.cons x)

lemma sortDescScore_sorted (l : List Hit) :
    (sortDescScore l).Pairwise (fun a b => scoreKey b ≤ scoreKey a) := by
  induction l with
  | nil => simp [sortDescScore]
  | cons x xs ih => exact insertDesc_sorted x _ ih

lemma insertDesc_filter (q : ℚ) (x : Hit) (l : List Hit)
    (h : l.Pairwise (fun a b => scoreKey b ≤ scoreKey a)) :
    (insertDesc x l).filter (fun h' => decide (scoreKey h' = q))
      = (x :: l).filter (fun h' => decide (scoreKey h' = q)) := by
  induction l with
  | nil => rfl
  | cons y ys ih =>
    rcases List.pairwise_cons.mp h with ⟨hy, hys⟩
    by_cases hc : scoreKey y ≤ scoreKey x
    · simp only [insertDesc, if_pos hc]
    · simp only [insertDesc, if_neg hc]
      have hxy : scoreKey x < scoreKey y := lt_of_not_le hc
      by_cases hq : scoreKey y = q
      · have hxq : ¬ (scoreKey x = q) := by
          rw [← hq]
          exact ne_of_lt hxy
        simp only [List.filter_cons, decide_eq_true_eq, hq, hxq, if_true, if_false,
          ite_true, ite_false, decide_True, decide_False]
        rw [ih hys]
        simp [List.filter_cons, hxq]
      · simp only [List.filter_cons, decide_eq_true_eq, hq, ite_false, if_false]
        rw [ih hys]
        simp [List.filter_cons, hq]

lemma sortDescScore_filter (q : ℚ) (l : List Hit) :
    (sortDescScore l).filter (fun h' => decide (scoreKey h' = q))
      = l.filter (fun h' => decide (scoreKey h' = q)) := by
  induction l with
  | nil => rfl
  | cons x xs ih =>
    have := insertDesc_filter q x (sortDescScore xs) (sortDescScore_sorted xs)
    rw [sortDescScore, this]
    simp only [List.filter_cons]
    rw [ih]

/-- Claim C4: `_rerank_by_keywords` gives every chunk the final score
`similarity + 0.03 * (number of distinct keywords occurring in its
text)`, and re-sorts the updated list descending by final score stably:
the output is a permutation of the score-updated input, is sorted
descending, and chunks of any fixed final score keep their input
(original similarity) order. -/
theorem rerank_stable_spec (hits : List Hit) :
    (rerank_by_keywords hits).Perm (hits.map updateScore)
    ∧ (rerank_by_keywords hits).Pairwise (fun a b => scoreKey b ≤ scoreKey a)
    ∧ (∀ q : ℚ, (rerank_by_keywords hits).filter (fun h' => decide (scoreKey h' = q))
        = (hits.map updateScore).filter (fun h' => decide (scoreKey h' = q)))
    ∧ (∀ h : Hit, (updateScore h).score
        = some (h.score.getD 0 + (3 / 100 : ℚ) * (keyword_score (effContent h) : ℚ))) :=
  ⟨sortDescScore_perm _, sortDescScore_sorted _,
   fun q => sortDescScore_filter q _, fun _ => rfl⟩

/-- Witness for `topk_capped_at_50` at `k = 99`. -/
theorem topk_capped_at_50_witness :
    (search_top_k [rowCommon] none 99 4 20).length ≤ 50
    ∧ ((50 : Int) ≤ 99
      ∧ search_top_k [rowCommon] none 99 4 20 = search_top_k [rowCommon] none 50 4 20) :=
  ⟨(topk_capped_at_50 [rowCommon] none 99 4 20).1,
   by decide, (topk_capped_at_50 [rowCommon] none 99 4 20).2 (by decide)⟩

lemma mem_dropWhile_keep (p : Char → Bool) (l : List Char) (x : Char)
    (hx : x ∈ l) (hp : p x = false) : x ∈ l.dropWhile p := by
  induction l with
  | nil => cases hx
  | cons c t ih =>
    cases hpc : p c with
    | false =>
      rw [List.dropWhile_cons_of_neg (by simp [hpc])]
      exact hx
    | true =>
      rw [List.dropWhile_cons_of_pos hpc]
      rcases List.mem_cons.mp hx with rfl | h'
      · rw [hpc] at hp; cases hp
      · exact ih h'

lemma stripL_keep (x : Char) (l : List Char) (hx : x ∈ l)
    (hp : x.isWhitespace = false) : x ∈ stripL l := by
  unfold stripL ltrimL
  have h1 : x ∈ l.reverse := List.mem_reverse.mpr hx
  have h2 := mem_dropWhile_keep (fun c => c.isWhitespace) l.reverse x h1 hp
  have h3 : x ∈ (List.dropWhile (fun c => c.isWhitespace) l.reverse).reverse :=
    List.mem_reverse.mpr h2
  exact mem_dropWhile_keep (fun c => c.isWhitespace) _ x h3 hp

lemma stripL_ne_nil (x : Char) (l : List Char) (hx : x ∈ l)
    (hp : x.isWhitespace = false) : stripL l ≠ [] := by
  intro h
  have := stripL_keep x l hx hp
  rw [h] at this
  cases this

lemma stripL_nil : stripL [] = [] := rfl

lemma startsWithL_self_append (n l : List Char) : startsWithL n (n ++ l) = true := by
  induction n with
  | nil => rfl
  | cons c t ih => simp [startsWithL, List.cons_append, ih]

lemma sep_prefix_nn (a : List Char) (h : startsWithL SEP a = true) :
    occursInL ['\n', '\n'] a = true := by
  match a with
  | [] => simp [startsWithL, SEP] at h
  | [c] => simp [startsWithL, SEP] at h
  | c1 :: c2 :: t =>
    simp only [SEP, startsWithL, Bool.and_eq_true, beq_iff_eq] at h
    obtain ⟨h1, h2, _⟩ := h
    subst h1
    subst h2
    simp [occursInL, startsWithL]

lemma nn_cons_tail (c : Char) (cs : List Char)
    (h : occursInL ['\n', '\n'] (c :: cs) = false) :
    occursInL ['\n', '\n'] cs = false := by
  simp only [occursInL, Bool.or_eq_false_iff] at h
  exact h.2

lemma splitGo_fuel (f : Nat) : ∀ (g : Nat) (s : List Char),
    s.length ≤ f → s.length ≤ g → splitGo f s = splitGo g s := by
  induction f with
  | zero =>
    intro g s hf _
    have hs : s = [] := List.length_eq_zero.mp (Nat.le_zero.mp hf)
    subst hs
    cases g <;> rfl
  | succ f ih =>
    intro g s hf hg
    cases s with
    | nil => cases g <;> rfl
    | cons c cs =>
      cases g with
      | zero => simp at hg
      | succ g' =>
        simp only [splitGo]
        simp only [List.length_cons] at hf hg
        by_cases hsep : startsWithL SEP (c :: cs) = true
        · rw [if_pos hsep, if_pos hsep]
          have hd : (List.drop 6 cs).length ≤ cs.length := by
            rw [List.length_drop]; omega
          rw [ih g' (List.drop 6 cs) (by omega) (by omega)]
        · rw [if_neg hsep, if_neg hsep]
          rw [ih g' cs (by omega) (by omega)]

lemma splitGo_no_nn : ∀ (a : List Char) (f : Nat), a.length ≤ f →
    occursInL ['\n', '\n'] a = false → splitGo f a = [a] := by
  intro a
  induction a with
  | nil => intro f _ _; cases f <;> rfl
  | cons c cs ih =>
    intro f hf hnn
    cases f with
    | zero => simp at hf
    | succ f' =>
      simp only [splitGo]
      have hsep : ¬ (startsWithL SEP (c :: cs) = true) := by
        intro hs
        rw [sep_prefix_nn _ hs] at hnn
        cases hnn
      rw [if_neg hsep]
      simp only [List.length_cons] at hf
      rw [ih f' (by omega) (nn_cons_tail c cs hnn)]

lemma splitGo_boundary : ∀ (a : List Char) (r : List Char) (f : Nat),
    (a ++ SEP ++ r).length ≤ f → occursInL ['\n', '\n'] a = false →
    splitGo f (a ++ SEP ++ r) = a :: splitGo r.length r := by
  intro a
  induction a with
  | nil =>
    intro r f hf _
    simp only [List.nil_append] at hf ⊢
    cases f with
    | zero => simp [SEP] at hf
    | succ f' =>
      have hc := startsWithL_self_append SEP r
      have hsepr : SEP ++ r = '\n' :: ('\n' :: '-' :: '-' :: '-' :: '\n' :: '\n' :: r) := by
        simp [SEP]
      rw [hsepr] at hc ⊢
      simp only [splitGo]
      rw [if_pos hc]
      have hdrop : List.drop 6 ('\n' :: '-' :: '-' :: '-' :: '\n' :: '\n' :: r) = r := rfl
      rw [hdrop]
      have hlen : r.length ≤ f' := by
        rw [hsepr] at hf
        simp only [List.length_cons] at hf
        omega
      rw [splitGo_fuel f' r.length r hlen (le_refl _)]
  | cons c cs ih =>
    intro r f hf hnn
    cases f with
    | zero => simp at hf
    | succ f' =>
      have hco : (c :: cs) ++ SEP ++ r = c :: (cs ++ SEP ++ r) := by simp
      rw [hco]
      simp only [splitGo]
      have hsep : ¬ (startsWithL SEP (c :: (cs ++ SEP ++ r)) = true) := by
        intro hs
        cases cs with
        | nil =>
          simp only [List.nil_append] at hs
          rw [show SEP ++ r = '\n' :: ('\n' :: '-' :: '-' :: '-' :: '\n' :: '\n' :: r) from by simp [SEP]] at hs
          simp [SEP, startsWithL] at hs
        | cons c2 cs' =>
          simp only [List.cons_append] at hs
          have hs' : startsWithL SEP (c :: c2 :: (cs' ++ SEP ++ r)) = true := by
            simpa using hs
          simp only [SEP, startsWithL, Bool.and_eq_true, beq_iff_eq] at hs'
          obtain ⟨h1, h2, _⟩ := hs'
          subst h1
          subst h2
          simp [occursInL, startsWithL] at hnn
      rw [if_neg hsep]
      have hlen : (cs ++ SEP ++ r).length ≤ f' := by
        rw [hco] at hf
        simp only [List.length_cons] at hf
        omega
      rw [ih r f' hlen (nn_cons_tail c cs hnn)]

lemma splitOnSep_joinSep : ∀ (blocks : List (List Char)),
    (∀ b ∈ blocks, occursInL ['\n', '\n'] b = false) → blocks ≠ [] →
    splitOnSep (joinSep blocks) = blocks := by
  intro blocks
  induction blocks with
  | nil => intro _ h; cases h rfl
  | cons b bs ih =>
    intro hb _
    cases bs with
    | nil =>
      show splitOnSep (joinSep [b]) = [b]
      simp only [joinSep]
      exact splitGo_no_nn b b.length (le_refl _) (hb b (by simp))
    | cons b2 bs' =>
      show splitOnSep (b ++ SEP ++ joinSep (b2 :: bs')) = b :: b2 :: bs'
      unfold splitOnSep
      rw [splitGo_boundary b (joinSep (b2 :: bs')) _ (le_refl _) (hb b (by simp))]
      have := ih (fun x hx => hb x (List.mem_cons_of_mem _ hx)) (by simp)
      unfold splitOnSep at this
      rw [this]

lemma altSplitGo_no_nn : ∀ (s : List Char) (f : Nat),
    occursInL ['\n', '\n'] s = false → altSplitGo f s = [s] := by
  intro s
  induction s with
  | nil => intro f _; cases f <;> rfl
  | cons c cs ih =>
    intro f hnn
    cases f with
    | zero => rfl
    | succ f' =>
      simp only [altSplitGo]
      have hrun : runNL (c :: cs) ≤ 1 := by
        by_cases hc : c = '\n'
        · simp only [runNL, if_pos hc]
          have : runNL cs = 0 := by
            cases cs with
            | nil => rfl
            | cons c2 t =>
              by_cases hc2 : c2 = '\n'
              · exfalso
                subst hc
                subst hc2
                simp [occursInL, startsWithL] at hnn
              · simp [runNL, hc2]
          omega
        · simp [runNL, hc]
      have hcond : (decide (2 ≤ runNL (c :: cs))
          && patMatch ((c :: cs).drop (runNL (c :: cs)))) = false := by
        have h2 : decide (2 ≤ runNL (c :: cs)) = false :=
          decide_eq_false (by omega)
        rw [h2, Bool.false_and]
      rw [if_neg (by simp [hcond])]
      rw [ih f' (nn_cons_tail c cs hnn)]

lemma rebuildGo_single (b : List Char) (hpm : patMatch b = true)
    (hs : stripL b ≠ []) : rebuildGo [] [b] = [b] := by
  show rebuildGo [] (b :: []) = [b]
  simp only [rebuildGo, hpm, if_true, stripL_nil]
  simp [hs]

lemma paren_mem_blockOfL (h : Hit) : '(' ∈ blockOfL h := by
  simp [blockOfL, List.mem_append, List.mem_cons]

lemma blockOfL_ne_nil (h : Hit) : blockOfL h ≠ [] := by
  intro hc
  have := paren_mem_blockOfL h
  rw [hc] at this
  cases this

lemma blockOfL_strip_ne_nil (h : Hit) : stripL (blockOfL h) ≠ [] :=
  stripL_ne_nil '(' _ (paren_mem_blockOfL h) (by decide)

lemma blockOfL_patMatch (h : Hit) : patMatch (blockOfL h) = true := by
  have : startsWithL ['('] (blockOfL h) = true := by
    simp [blockOfL, startsWithL, List.cons_append]
  simp [patMatch, this]

lemma formatBlocksL_cons_cons (h1 h2 : Hit) (t : List Hit) :
    formatBlocksL (h1 :: h2 :: t)
      = blockOfL h1 ++ SEP ++ joinSep ((h2 :: t).map blockOfL) := rfl

/-- Claim C7 (amended): the round trip holds for every chunk list whose
formatted blocks contain no two consecutive newlines (in particular the
separator cannot occur inside a block) and carry no leading or trailing
whitespace: `_split_blocks (_format_blocks hits)` returns exactly the
formatted blocks, in order.  Without a restriction of this kind the
round trip fails — see the counterexample. -/
theorem split_join_roundtrip (hits : List Hit)
    (hb : ∀ h ∈ hits, occursInL ['\n', '\n'] (blockOfL h) = false
          ∧ stripL (blockOfL h) = blockOfL h) :
    splitBlocksL (formatBlocksL hits) = hits.map blockOfL := by
  match hits with
  | [] => rfl
  | [h] =>
    obtain ⟨hnn, hst⟩ := hb h (by simp)
    have hbne : blockOfL h ≠ [] := blockOfL_ne_nil h
    have hsne : stripL (blockOfL h) ≠ [] := blockOfL_strip_ne_nil h
    have hform : formatBlocksL [h] = blockOfL h := rfl
    rw [hform, List.map_singleton]
    unfold splitBlocksL
    rw [if_neg hbne]
    have hsplit : splitOnSep (blockOfL h) = [blockOfL h] :=
      splitGo_no_nn _ _ (le_refl _) hnn
    rw [hsplit]
    have hfilter : ([blockOfL h].filter (fun b => decide (stripL b ≠ [])))
        = [blockOfL h] := by
      simp [List.filter, hsne]
    rw [hfilter]
    rw [if_neg (by simp)]
    have halt : altSplit (blockOfL h) = [blockOfL h] :=
      altSplitGo_no_nn _ _ hnn
    rw [halt, rebuildGo_single _ (blockOfL_patMatch h) hsne]
    have hfilter2 : ([blockOfL h].filter
        (fun b => decide (b ≠ [] ∧ stripL b ≠ []))) = [blockOfL h] := by
      simp [List.filter, hsne, hbne]
    rw [hfilter2, List.map_singleton, hst]
    rw [if_neg (by simp [hbne])]
  | h1 :: h2 :: t =>
    have hbs : ∀ b ∈ (h1 :: h2 :: t).map blockOfL,
        occursInL ['\n', '\n'] b = false := by
      intro b hb'
      obtain ⟨h', hh', rfl⟩ := List.mem_map.mp hb'
      exact (hb h' hh').1
    have hne : formatBlocksL (h1 :: h2 :: t) ≠ [] := by
      rw [formatBlocksL_cons_cons]
      simp [SEP, List.append_eq_nil]
    have hsplit : splitOnSep (formatBlocksL (h1 :: h2 :: t))
        = (h1 :: h2 :: t).map blockOfL :=
      splitOnSep_joinSep _ hbs (by simp)
    have hfilter : (((h1 :: h2 :: t).map blockOfL).filter
        (fun b => decide (stripL b ≠ []))) = (h1 :: h2 :: t).map blockOfL := by
      rw [List.filter_eq_self]
      intro b hb'
      obtain ⟨h', hh', rfl⟩ := List.mem_map.mp hb'
      simp [blockOfL_strip_ne_nil h']
    unfold splitBlocksL
    rw [if_neg hne, hsplit, hfilter]
    rw [if_pos (by simp)]

/-- A hit whose content contains the block separator itself. -/
def sepContentHit : Hit :=
  { doc_id := some "d7", chunk_id := 71, content := some "a\n\n---\n\nb",
    chunk_text := none, policy_type := none, insurer := none,
    company := none, carrier := none, page := some 1, page_no := none,
    file_name := some "f", clause_title := none, score := some 1 }

/-- A hit with clean one-line content. -/
def cleanHit : Hit :=
  { doc_id := some "d8", chunk_id := 72, content := some "c",
    chunk_text := none, policy_type := none, insurer := none,
    company := none, carrier := none, page := some 2, page_no := none,
    file_name := some "f", clause_title := none, score := some 1 }

/-- A second clean hit for the round-trip witness. -/
def cleanHit2 : Hit :=
  { cleanHit with chunk_id := 73, content := some "청구 서류 안내", page := some 3 }

/-- Counterexample to claim C7 as stated: for a chunk whose content
contains the separator `"\n\n---\n\n"`, splitting the joined text does
not return the original block list — the contaminated block is split in
two, so the round trip fails without the fixture restriction the spec
itself mentions. -/
theorem roundtrip_fails_on_separator_content :
    splitBlocksL (formatBlocksL [sepContentHit, cleanHit])
      ≠ [sepContentHit, cleanHit].map blockOfL := by
  decide

/-- Witness for `split_join_roundtrip` on two concrete clean hits. -/
theorem split_join_roundtrip_witness :
    (∀ h ∈ [cleanHit, cleanHit2],
        occursInL ['\n', '\n'] (blockOfL h) = false
        ∧ stripL (blockOfL h) = blockOfL h)
    ∧ splitBlocksL (formatBlocksL [cleanHit, cleanHit2])
        = [cleanHit, cleanHit2].map blockOfL :=
  ⟨by decide, split_join_roundtrip [cleanHit, cleanHit2] (by decide)⟩
